import Mathlib

/-!
Verification development for the MOTION `ShareWrapper` layer
(`src/motioncore/protocols/share_wrapper.cpp`).

The embedding is a symbolic gate-graph semantics: a `Share` is a
protocol-tagged list of wires, a wire is a term of the inductive `Wire`
recording exactly which gate produced it.  Every `ShareWrapper` operator is
translated into a Lean function returning `Except Err Share`: the `Except`
error corresponds to a C++ `throw` (or, where noted, to a failed
`dynamic_pointer_cast` whose result is asserted / dereferenced).  Debug-only
`assert(...)` statements of the C++ code are noted in comments; they are
compiled out in release builds and are not part of the translated control
flow unless their violation leads to a null-pointer dereference, which is
modelled as `Err.downcastFailure`.
-/

namespace Motion

/-- Protocol tags.  `constant` is the tag reported by the constant-share
classes (`proto::ConstantArithmeticShare`), which are distinct classes from
`proto::arithmetic_gmw::Share<T>`. -/
inductive MpcProtocol
  | arithmeticGmw
  | booleanGmw
  | bmr
  | constant
  | invalid
deriving DecidableEq, Repr

/-- Symbolic wires: each constructor records the gate (or input) that
produced the wire.  Arithmetic wires carry the ring width (8/16/32/64 in
well-formed circuits); boolean wires are single bits. -/
inductive Wire
  | input (id : Nat)
  | ainput (width : Nat) (id : Nat)
  | aconstWire (width : Nat) (id : Nat)
  | winv (w : Wire)
  | wxor (a : Wire) (b : Wire)
  | wand (a : Wire) (b : Wire)
  | addGate (width : Nat) (a : Wire) (b : Wire)
  | constAddGate (width : Nat) (live : Wire) (pub : Wire)
  | subGate (width : Nat) (a : Wire) (b : Wire)
  | mulGate (width : Nat) (a : Wire) (b : Wire)
  | constMulGate (width : Nat) (live : Wire) (pub : Wire)
  | squareGate (width : Nat) (a : Wire)
  | a2bmrOut (width : Nat) (src : Wire) (k : Nat)
  | bmr2gmwOut (src : Wire)
  | b2bmrOut (src : Wire)
  | gmw2aOut (width : Nat) (src0 : Wire)
deriving DecidableEq

/-- A share: a boolean share is a protocol tag plus its wires (one bit per
wire); an arithmetic share is a ring width, a constant flag
(`IsConstant()`), and its wires (normally a single arithmetic wire). -/
inductive Share
  | boolean (protocol : MpcProtocol) (wires : List Wire)
  | arith (width : Nat) (isConst : Bool) (wires : List Wire)
deriving DecidableEq

/-- `Share::GetProtocol()`. -/
def Share.protocol : Share → MpcProtocol
  | .boolean p _ => p
  | .arith _ true _ => .constant
  | .arith _ false _ => .arithmeticGmw

/-- `Share::GetBitLength()`: wire count for boolean shares, ring width for
arithmetic shares. -/
def Share.bitLength : Share → Nat
  | .boolean _ ws => ws.length
  | .arith w _ _ => w

/-- `Share::IsConstant()`. -/
def Share.isConstant : Share → Bool
  | .boolean _ _ => false
  | .arith _ c _ => c

/-- `Share::GetWires()`. -/
def Share.wires : Share → List Wire
  | .boolean _ ws => ws
  | .arith _ _ ws => ws

/-- Error kinds, following the taxonomy of the specification.  Each
corresponds to a `throw` site in the C++ code; `downcastFailure` models a
failed `dynamic_pointer_cast` whose null result is asserted or
dereferenced, `nullDereference` and `outOfRange` model `std::vector::at`
and null-`shared_ptr` accesses in `Evaluate`, and `outOfFuel` is the
fuel-exhaustion marker of the embedded `while` loop of `operator==`. -/
inductive Err
  | unsupportedOperation
  | invalidBitLength
  | invalidConversion
  | notImplemented
  | emptyInput
  | protocolMismatch
  | unsupportedGateType
  | unknownProtocol
  | downcastFailure
  | outOfRange
  | nullDereference
  | outOfFuel
deriving DecidableEq, Repr

/-- `dynamic_pointer_cast<proto::boolean_gmw::Share>`. -/
def gmwWires : Share → Option (List Wire)
  | .boolean .booleanGmw ws => some ws
  | _ => none

/-- `dynamic_pointer_cast<proto::bmr::Share>`. -/
def bmrWires : Share → Option (List Wire)
  | .boolean .bmr ws => some ws
  | _ => none

/-- `ShareWrapper::operator~` (InvGate construction). -/
def invOp (s : Share) : Except Err Share :=
  if s.protocol = .arithmeticGmw then
    .error .unsupportedOperation
  else if s.protocol = .booleanGmw then
    match gmwWires s with
    | some ws => .ok (.boolean .booleanGmw (ws.map Wire.winv))
    | none => .error .downcastFailure
  else
    match bmrWires s with
    | some ws => .ok (.boolean .bmr (ws.map Wire.winv))
    | none => .error .downcastFailure

/-- `ShareWrapper::operator^` (XorGate construction).  The equal-protocol
and equal-bit-length `assert`s of the source are debug-only. -/
def xorOp (a b : Share) : Except Err Share :=
  if a.protocol = .arithmeticGmw then
    .error .unsupportedOperation
  else if a.protocol = .booleanGmw then
    match gmwWires a, gmwWires b with
    | some was, some wbs => .ok (.boolean .booleanGmw (List.zipWith Wire.wxor was wbs))
    | _, _ => .error .downcastFailure
  else
    match bmrWires a, bmrWires b with
    | some was, some wbs => .ok (.boolean .bmr (List.zipWith Wire.wxor was wbs))
    | _, _ => .error .downcastFailure

/-- `ShareWrapper::operator&` (AndGate construction). -/
def andOp (a b : Share) : Except Err Share :=
  if a.protocol = .arithmeticGmw then
    .error .unsupportedOperation
  else if a.protocol = .booleanGmw then
    match gmwWires a, gmwWires b with
    | some was, some wbs => .ok (.boolean .booleanGmw (List.zipWith Wire.wand was wbs))
    | _, _ => .error .downcastFailure
  else
    match bmrWires a, bmrWires b with
    | some was, some wbs => .ok (.boolean .bmr (List.zipWith Wire.wand was wbs))
    | _, _ => .error .downcastFailure

/-- `ShareWrapper::operator|`: after the arithmetic-share check it returns
literally `~((~*this) & ~other)`; no dedicated OR gate type exists. -/
def orOp (a b : Share) : Except Err Share :=
  if a.protocol = .arithmeticGmw then
    .error .unsupportedOperation
  else do
    let na ← invOp a
    let nb ← invOp b
    let c ← andOp na nb
    invOp c

/-- `dynamic_pointer_cast<proto::arithmetic_gmw::Share<T>>` followed by
`GetArithmeticWire()` (the share's first wire).  The cast succeeds only for
a non-constant arithmetic share of ring width `w` (constant shares are the
distinct class `proto::ConstantArithmeticShare`). -/
def arithWire (w : Nat) (s : Share) : Option Wire :=
  match s with
  | .arith wa false (g :: _) => if wa = w then some g else none
  | _ => none

/-- `dynamic_pointer_cast<proto::ConstantArithmeticWire<T>>` applied to
`GetWires()[0]` of a constant arithmetic share. -/
def constArithWire (w : Nat) (s : Share) : Option Wire :=
  match s with
  | .arith wa true (g :: _) => if wa = w then some g else none
  | _ => none

/-- `ShareWrapper::Add<T>`: a non-constant/non-constant pair gets the
standard `AdditionGate`; otherwise the references are swapped so that the
constant operand is first and a `ConstantArithmeticAdditionGate` is built
from the non-constant wire and the constant wire. -/
def addT (w : Nat) (a b : Share) : Except Err Share :=
  if ¬a.isConstant ∧ ¬b.isConstant then
    match arithWire w a, arithWire w b with
    | some ga, some gb => .ok (.arith w false [Wire.addGate w ga gb])
    | _, _ => .error .downcastFailure
  else
    -- assert(!(share->IsConstant() && other->IsConstant())) is debug-only
    let c := if b.isConstant then b else a
    let nc := if b.isConstant then a else b
    match constArithWire w c, arithWire w nc with
    | some gc, some gn => .ok (.arith w false [Wire.constAddGate w gn gc])
    | _, _ => .error .downcastFailure

/-- `ShareWrapper::Sub<T>`: unconditionally downcasts both operands to the
non-constant arithmetic share type and builds the two-input
`SubtractionGate`; there is no constant-operand branch. -/
def subT (w : Nat) (a b : Share) : Except Err Share :=
  match arithWire w a, arithWire w b with
  | some ga, some gb => .ok (.arith w false [Wire.subGate w ga gb])
  | _, _ => .error .downcastFailure

/-- `ShareWrapper::Mul<T>`: same two-case structure as `Add<T>`, with
`MultiplicationGate` and `ConstantArithmeticMultiplicationGate`. -/
def mulT (w : Nat) (a b : Share) : Except Err Share :=
  if ¬a.isConstant ∧ ¬b.isConstant then
    match arithWire w a, arithWire w b with
    | some ga, some gb => .ok (.arith w false [Wire.mulGate w ga gb])
    | _, _ => .error .downcastFailure
  else
    let c := if b.isConstant then b else a
    let nc := if b.isConstant then a else b
    match constArithWire w c, arithWire w nc with
    | some gc, some gn => .ok (.arith w false [Wire.constMulGate w gn gc])
    | _, _ => .error .downcastFailure

/-- `ShareWrapper::Square<T>`. -/
def squareT (w : Nat) (a : Share) : Except Err Share :=
  match arithWire w a with
  | some ga => .ok (.arith w false [Wire.squareGate w ga])
  | none => .error .downcastFailure

/-- `ShareWrapper::operator+`: protocol check, then width dispatch on the
receiver's bit length to `Add<T>`; `throw std::bad_cast()` on any other
width (classified `InvalidBitLength` by the specification taxonomy). -/
def addOp (a b : Share) : Except Err Share :=
  if a.protocol ≠ .arithmeticGmw ∧ b.protocol ≠ .arithmeticGmw then
    .error .unsupportedOperation
  else if a.bitLength = 8 then addT 8 a b
  else if a.bitLength = 16 then addT 16 a b
  else if a.bitLength = 32 then addT 32 a b
  else if a.bitLength = 64 then addT 64 a b
  else .error .invalidBitLength

/-- `ShareWrapper::operator-`. -/
def subOp (a b : Share) : Except Err Share :=
  if a.protocol ≠ .arithmeticGmw ∧ b.protocol ≠ .arithmeticGmw then
    .error .unsupportedOperation
  else if a.bitLength = 8 then subT 8 a b
  else if a.bitLength = 16 then subT 16 a b
  else if a.bitLength = 32 then subT 32 a b
  else if a.bitLength = 64 then subT 64 a b
  else .error .invalidBitLength

/-- `ShareWrapper::operator*`.  The squaring test `share_ == other.share_`
compares `shared_ptr` identity; it is modelled by structural equality of
the symbolic shares (identical wrapped shares have identical symbolic
descriptions). -/
def mulOp (a b : Share) : Except Err Share :=
  if a.protocol ≠ .arithmeticGmw ∧ b.protocol ≠ .arithmeticGmw then
    .error .unsupportedOperation
  else if a = b then
    if a.bitLength = 8 then squareT 8 a
    else if a.bitLength = 16 then squareT 16 a
    else if a.bitLength = 32 then squareT 32 a
    else if a.bitLength = 64 then squareT 64 a
    else .error .invalidBitLength
  else if a.bitLength = 8 then mulT 8 a b
  else if a.bitLength = 16 then mulT 16 a b
  else if a.bitLength = 32 then mulT 32 a b
  else if a.bitLength = 64 then mulT 64 a b
  else .error .invalidBitLength

/-- Ring width of an arithmetic wire (`Wire::GetBitLength()`); boolean
wires are single bits. -/
def Wire.wireWidth : Wire → Nat
  | .ainput w _ => w
  | .aconstWire w _ => w
  | .addGate w _ _ => w
  | .constAddGate w _ _ => w
  | .subGate w _ _ => w
  | .mulGate w _ _ => w
  | .constMulGate w _ _ => w
  | .squareGate w _ => w
  | .gmw2aOut w _ => w
  | _ => 1

/-- `ShareWrapper::Split()`: one single-wire share per wire, preserving
order and the share type. -/
def splitOp : Share → List Share
  | .boolean p ws => ws.map (fun w => .boolean p [w])
  | .arith w c ws => ws.map (fun g => .arith w c [g])

/-- `ShareWrapper::Join`: empty input throws (`EmptyInput`), a protocol
differing from the first share's throws (`ProtocolMismatch`); otherwise
the wires are concatenated in order and the result share is typed by the
first share's protocol (width-dispatched on the first wire's bit length
for ArithmeticGmw, `InvalidBitLength` otherwise). -/
def joinOp (shares : List Share) : Except Err Share :=
  match shares with
  | [] => .error .emptyInput
  | s :: rest =>
    if rest.any (fun t => t.protocol ≠ s.protocol) then
      .error .protocolMismatch
    else
      let wires := (s :: rest).flatMap Share.wires
      match s.protocol with
      | .arithmeticGmw =>
        match wires with
        | [] => .error .outOfRange
        | w0 :: _ =>
          let bl := w0.wireWidth
          if bl = 8 ∨ bl = 16 ∨ bl = 32 ∨ bl = 64 then
            .ok (.arith bl false wires)
          else .error .invalidBitLength
      | .booleanGmw => .ok (.boolean .booleanGmw wires)
      | .bmr => .ok (.boolean .bmr wires)
      | _ => .error .unknownProtocol

/-- `ShareWrapper::ArithmeticGmwToBmr()`: registers an
`ArithmeticGmwToBmrGate`; its output is a Bmr share with one bit per ring
bit.  The gate class itself is external to the sources; its output wires
are opaque symbolic nodes. -/
def arithmeticGmwToBmr (s : Share) : Except Err Share :=
  match s with
  | .arith w false (g :: _) =>
    .ok (.boolean .bmr ((List.range w).map (fun k => Wire.a2bmrOut w g k)))
  | _ => .error .downcastFailure

/-- `ShareWrapper::BmrToBooleanGmw()`: downcast to a Bmr share (asserted),
then a `BmrToBooleanGmwGate` producing a BooleanGmw share of the same bit
length. -/
def bmrToBooleanGmw (s : Share) : Except Err Share :=
  match bmrWires s with
  | some ws => .ok (.boolean .booleanGmw (ws.map Wire.bmr2gmwOut))
  | none => .error .downcastFailure

/-- `ShareWrapper::BooleanGmwToBmr()`. -/
def booleanGmwToBmr (s : Share) : Except Err Share :=
  match gmwWires s with
  | some ws => .ok (.boolean .bmr (ws.map Wire.b2bmrOut))
  | none => .error .downcastFailure

/-- `ShareWrapper::BooleanGmwToArithmeticGmw()`: a single direct
`GmwToArithmeticGate<T>` dispatched on the share's bit length, throwing
`Invalid bitlength` (`InvalidBitLength`) on any other width. -/
def booleanGmwToArithmeticGmw (s : Share) : Except Err Share :=
  let bl := s.bitLength
  if bl = 8 ∨ bl = 16 ∨ bl = 32 ∨ bl = 64 then
    match s.wires with
    | w0 :: _ => .ok (.arith bl false [Wire.gmw2aOut bl w0])
    | [] => .error .downcastFailure
  else .error .invalidBitLength

/-- `ShareWrapper::Convert<MpcProtocol::kBmr>()`. -/
def convertToBmr (s : Share) : Except Err Share :=
  if s.protocol = .bmr then .error .invalidConversion
  else if s.protocol = .arithmeticGmw then arithmeticGmwToBmr s
  else booleanGmwToBmr s

/-- Every successful `arithmeticGmwToBmr` yields a Bmr share. -/
theorem arithmeticGmwToBmr_protocol (s t : Share)
    (h : arithmeticGmwToBmr s = .ok t) : t.protocol = .bmr := by
  unfold arithmeticGmwToBmr at h
  split at h
  · cases h
    rfl
  · cases h

/-- Every successful `booleanGmwToBmr` yields a Bmr share. -/
theorem booleanGmwToBmr_protocol (s t : Share)
    (h : booleanGmwToBmr s = .ok t) : t.protocol = .bmr := by
  unfold booleanGmwToBmr at h
  cases hg : gmwWires s with
  | some ws =>
    rw [hg] at h
    cases h
    rfl
  | none =>
    rw [hg] at h
    cases h

/-- Every successful `convertToBmr` yields a Bmr-tagged share. -/
theorem convertToBmr_protocol (s t : Share) (h : convertToBmr s = .ok t) :
    t.protocol = .bmr := by
  unfold convertToBmr at h
  split at h
  · cases h
  · split at h
    · exact arithmeticGmwToBmr_protocol s t h
    · exact booleanGmwToBmr_protocol s t h

/-- `ShareWrapper::Convert<MpcProtocol::kBooleanGmw>()`: Bmr shares use
the direct Bmr-to-BooleanGmw gate; ArithmeticGmw shares recursively route
through Bmr. -/
def convertToBooleanGmw (s : Share) : Except Err Share :=
  if s.protocol = .booleanGmw then .error .invalidConversion
  else if hA : s.protocol = .arithmeticGmw then
    match hc : convertToBmr s with
    | .error e => .error e
    | .ok t => convertToBooleanGmw t
  else bmrToBooleanGmw s
termination_by (if s.protocol = .arithmeticGmw then 1 else 0)
decreasing_by
  have ht := convertToBmr_protocol s t hc
  rw [hA, ht]
  decide

/-- Every successful `bmrToBooleanGmw` yields a BooleanGmw share. -/
theorem bmrToBooleanGmw_protocol (u v : Share) (h : bmrToBooleanGmw u = .ok v) :
    v.protocol = .booleanGmw := by
  unfold bmrToBooleanGmw at h
  cases hg : bmrWires u with
  | some ws =>
    rw [hg] at h
    cases h
    rfl
  | none =>
    rw [hg] at h
    cases h

/-- Every successful `convertToBooleanGmw` yields a BooleanGmw share. -/
theorem convertToBooleanGmw_protocol (s t : Share)
    (h : convertToBooleanGmw s = .ok t) : t.protocol = .booleanGmw := by
  rw [convertToBooleanGmw] at h
  split at h
  · cases h
  · split at h
    · split at h
      · cases h
      · rename_i t' hc
        have hbmr := convertToBmr_protocol s t' hc
        rw [convertToBooleanGmw] at h
        rw [if_neg (by rw [hbmr]; decide), dif_neg (by rw [hbmr]; decide)] at h
        exact bmrToBooleanGmw_protocol t' t h
    · exact bmrToBooleanGmw_protocol s t h

/-- `ShareWrapper::Convert<MpcProtocol::kArithmeticGmw>()`: BooleanGmw
shares use the direct width-specialized gate; every other source protocol
recursively routes through BooleanGmw. -/
def convertToArithmeticGmw (s : Share) : Except Err Share :=
  if s.protocol = .arithmeticGmw then .error .invalidConversion
  else if hB : s.protocol = .booleanGmw then booleanGmwToArithmeticGmw s
  else
    match hc : convertToBooleanGmw s with
    | .error e => .error e
    | .ok t => convertToArithmeticGmw t
termination_by (if s.protocol = .booleanGmw then 0 else 1)
decreasing_by
  have ht := convertToBooleanGmw_protocol s t hc
  rw [ht, if_neg hB]
  decide

/-- Modelled from the spec: `IsPowerOfTwo` (a MOTION utility helper not
among the given sources) decides whether a bit length is a power of two;
zero is not a power of two. -/
def IsPowerOfTwo (x : Nat) : Bool :=
  x != 0 && (x &&& (x - 1)) == 0

/-- One round of the balanced AND tree: adjacent wires are combined by an
AND gate, an odd trailing wire is carried over. -/
def andTreeRound : List Wire → List Wire
  | [] => []
  | [a] => [a]
  | a :: b :: rest => Wire.wand a b :: andTreeRound rest

theorem andTreeRound_length : ∀ ws : List Wire,
    (andTreeRound ws).length = (ws.length + 1) / 2
  | [] => rfl
  | [_] => by simp [andTreeRound]
  | _ :: _ :: rest => by
    simp only [andTreeRound, List.length_cons, andTreeRound_length rest]
    omega

/-- Iterated AND-tree reduction of a wire list down to at most one wire. -/
def andReduceW (ws : List Wire) : List Wire :=
  if h : ws.length ≤ 1 then ws
  else andReduceW (andTreeRound ws)
termination_by ws.length
decreasing_by
  rw [andTreeRound_length]
  omega

/-- Modelled from the spec: `FullAndTree` (from `algorithm/tree.h`, not
among the given sources) AND-reduces all wires of a boolean share to a
single wire by a balanced binary tree of AND gates, halving the live wire
count each round. -/
def fullAndTree : Share → Share
  | .boolean p ws => .boolean p (andReduceW ws)
  | s => s

/-- The segment-length enumeration of `ShareWrapper::operator==`:
`for (i = 1; i <= inner; i *= 2) if ((inner & i) == i) ...` selects, in
increasing order, every power of two present in the binary expansion of
`inner`. -/
def segLensLoop (inner i : Nat) : List Nat :=
  if h : 1 ≤ i ∧ i ≤ inner then
    (if inner &&& i = i then [i] else []) ++ segLensLoop inner (2 * i)
  else []
termination_by inner + 1 - i
decreasing_by
  omega

/-- Helper form of the segment-length enumeration, recursing over the
binary digits of the length. -/
def segLensAux (m i : Nat) : List Nat :=
  if h : m = 0 then []
  else (if m % 2 = 1 then [i] else []) ++ segLensAux (m / 2) (2 * i)
termination_by m
decreasing_by
  exact Nat.div_lt_self (Nat.pos_of_ne_zero h) one_lt_two

/-- Number of ones in the binary expansion. -/
def popCountNat (m : Nat) : Nat :=
  if h : m = 0 then 0
  else m % 2 + popCountNat (m / 2)
termination_by m
decreasing_by
  exact Nat.div_lt_self (Nat.pos_of_ne_zero h) one_lt_two

/-- Cut a list into consecutive chunks of the given lengths (the
`offset`/`offset + i` iterator arithmetic of `operator==`). -/
def chunksBy {α : Type} : List α → List Nat → List (List α)
  | _, [] => []
  | l, k :: ks => l.take k :: chunksBy (l.drop k) ks

/-- One iteration of the non-power-of-two reduction loop of
`ShareWrapper::operator==`: split the current share into single-bit
shares, group them into consecutive segments whose lengths are the powers
of two of the bit length's binary expansion, `Join` each segment, reduce
each segment with `FullAndTree`, and `Join` the per-segment results. -/
def eqIter (s : Share) : Except Err Share := do
  let inner := s.bitLength
  let parts := splitOp s
  let segments := chunksBy parts (segLensLoop inner 1)
  let joined ← segments.mapM joinOp
  let output := joined.map fullAndTree
  joinOp output

/-- The `while (result.GetBitLength() != 1)` loop of `operator==`,
embedded with an explicit fuel parameter (the C++ loop is unbounded;
`Err.outOfFuel` marks fuel exhaustion and is proven unreachable for the
fuel used by `eqBuild`). -/
def eqLoopFuel : Nat → Share → Except Err Share
  | 0, _ => .error .outOfFuel
  | fuel + 1, s =>
    if s.bitLength = 1 then .ok s
    else
      match eqIter s with
      | .error e => .error e
      | .ok r => eqLoopFuel fuel r

/-- The two precondition checks at the top of `ShareWrapper::operator==`:
both only call `LogError` on the backend's logger; neither throws. -/
def eqPrecheckLogs (a b : Share) : List String :=
  if b.bitLength ≠ a.bitLength then
    ["Comparing shared bit strings of different bit lengths"]
  else if b.bitLength = 0 then
    ["Comparing shared bit strings of bit length 0 is not allowed"]
  else []

/-- The circuit construction of `ShareWrapper::operator==`: XNOR
(`~(*this ^ other)`), then return directly at bit length 1, reduce by
`FullAndTree` at a power-of-two bit length, and otherwise run the
segment-decomposition loop.  The fuel `bitlength + 1` is sufficient for
the loop (proven below), so the fuelled loop agrees with the unbounded
C++ `while`. -/
def eqBuild (a b : Share) : Except Err Share := do
  let x ← xorOp a b
  let result ← invOp x
  let bitlength := result.bitLength
  if bitlength = 1 then pure result
  else if IsPowerOfTwo bitlength then pure (fullAndTree result)
  else eqLoopFuel (bitlength + 1) result

/-- `ShareWrapper::operator==`: the emitted log messages paired with the
constructed comparison circuit. -/
def eqOp (a b : Share) : List String × Except Err Share :=
  (eqPrecheckLogs a b, eqBuild a b)

/-- Boolean semantics of a boolean circuit wire under an assignment of the
input wires.  Arithmetic and conversion-gate wires are not boolean
circuit nodes and evaluate to an arbitrary default. -/
def evalW (env : Nat → Bool) : Wire → Bool
  | .input i => env i
  | .winv w => !evalW env w
  | .wxor x y => xor (evalW env x) (evalW env y)
  | .wand x y => evalW env x && evalW env y
  | _ => false

/-- Number of AND gates in a wire's cone (conversion-gate outputs are
opaque). -/
def countAnd : Wire → Nat
  | .winv w => countAnd w
  | .wxor x y => countAnd x + countAnd y
  | .wand x y => countAnd x + countAnd y + 1
  | _ => 0

/-- `ENCRYPTO::PrimitiveOperationType` restricted to the tags `Evaluate`
dispatches on; `kOther` stands for any tag outside the supported set. -/
inductive PrimitiveOperationType
  | kXor
  | kAnd
  | kOr
  | kInv
  | kOther
deriving DecidableEq

/-- One gate record of an `AlgorithmDescription`. -/
structure PrimitiveOperation where
  type : PrimitiveOperationType
  parent_a : Nat
  parent_b : Option Nat
  output_wire : Nat
deriving DecidableEq

/-- `encrypto::motion::AlgorithmDescription`. -/
structure AlgorithmDescription where
  number_of_wires : Nat
  number_of_gates : Nat
  number_of_output_wires : Nat
  number_of_input_wires_parent_a : Nat
  number_of_input_wires_parent_b : Option Nat
  gates : List PrimitiveOperation
deriving DecidableEq

/-- `std::vector::resize(n, nullptr)` on the slot array. -/
def resizeSlots (slots : List (Option Share)) (n : Nat) : List (Option Share) :=
  slots.take n ++ List.replicate (n - slots.length) none

/-- `*pointers_to_wires_of_split_share.at(i)`: `std::vector::at` throws on
an out-of-range index, dereferencing a null `shared_ptr` is modelled as
`Err.nullDereference`. -/
def getSlot (slots : List (Option Share)) (i : Nat) : Except Err Share :=
  match slots.get? i with
  | none => .error .outOfRange
  | some none => .error .nullDereference
  | some (some sh) => .ok sh

/-- `pointers_to_wires_of_split_share.at(i) = make_shared(...)`. -/
def setSlot (slots : List (Option Share)) (i : Nat) (sh : Share) :
    Except Err (List (Option Share)) :=
  if i < slots.length then .ok (slots.set i (some sh)) else .error .outOfRange

/-- One gate dispatch of `ShareWrapper::Evaluate`: apply the primitive to
the referenced slots and store the result at the declared output index.
`assert(gate.parent_b)` is debug-only; dereferencing an absent optional is
modelled as `Err.nullDereference`.  An unsupported tag throws
(`UnsupportedGateType`). -/
def evalGate (slots : List (Option Share)) (g : PrimitiveOperation) :
    Except Err (List (Option Share)) :=
  match g.type with
  | .kXor =>
    match g.parent_b with
    | none => .error .nullDereference
    | some pb => do
      let a ← getSlot slots g.parent_a
      let b ← getSlot slots pb
      let r ← xorOp a b
      setSlot slots g.output_wire r
  | .kAnd =>
    match g.parent_b with
    | none => .error .nullDereference
    | some pb => do
      let a ← getSlot slots g.parent_a
      let b ← getSlot slots pb
      let r ← andOp a b
      setSlot slots g.output_wire r
  | .kOr =>
    match g.parent_b with
    | none => .error .nullDereference
    | some pb => do
      let a ← getSlot slots g.parent_a
      let b ← getSlot slots pb
      let r ← orOp a b
      setSlot slots g.output_wire r
  | .kInv => do
    let a ← getSlot slots g.parent_a
    let r ← invOp a
    setSlot slots g.output_wire r
  | .kOther => .error .unsupportedGateType

/-- The gate loop of `Evaluate`: `count` iterations over
`algorithm.gates.at(gate_i)` starting at `gate_i = gi`. -/
def evalGatesLoop (gates : List PrimitiveOperation) :
    Nat → Nat → List (Option Share) → Except Err (List (Option Share))
  | _, 0, slots => .ok slots
  | gi, remaining + 1, slots =>
    match gates.get? gi with
    | none => .error .outOfRange
    | some g => do
      let slots' ← evalGate slots g
      evalGatesLoop gates (gi + 1) remaining slots'

/-- The circuit-interpreter part of `ShareWrapper::Evaluate` (everything
after the bit-length check): split the receiver, resize the slot array to
the declared wire count, run the gate loop, and `Join` the last
`number_of_output_wires` slots.  When `number_of_output_wires` exceeds
the slot count, the C++ start index `size - n` wraps around and the
output-collection loop body never executes. -/
def evalBuild (s : Share) (alg : AlgorithmDescription) : Except Err Share := do
  let niw := alg.number_of_input_wires_parent_a +
    alg.number_of_input_wires_parent_b.getD 0
  let slots0 := (splitOp s).map some
  let slots1 := resizeSlots slots0 alg.number_of_wires
  -- assert(number_of_gates + niw == slots1.length) is debug-only
  let slots2 ← evalGatesLoop alg.gates 0 (alg.number_of_wires - niw) slots1
  let outSlots :=
    if alg.number_of_output_wires > slots2.length then []
    else slots2.drop (slots2.length - alg.number_of_output_wires)
  let outputs ← outSlots.mapM (fun o =>
    match o with
    | none => .error Err.nullDereference
    | some sh => .ok sh)
  joinOp outputs

/-- `ShareWrapper::Evaluate`: the input-wire-count check only logs on
mismatch (`LogError`, non-fatal); the interpreter then proceeds
regardless. -/
def evaluateOp (s : Share) (alg : AlgorithmDescription) :
    List String × Except Err Share :=
  let niw := alg.number_of_input_wires_parent_a +
    alg.number_of_input_wires_parent_b.getD 0
  let logs :=
    if niw ≠ s.bitLength then
      ["ShareWrapper Evaluate expected a share of the declared input bit length"]
    else []
  (logs, evalBuild s alg)

/-! ### Arithmetic facts about the segment decomposition -/

theorem popCountNat_le (m : Nat) : popCountNat m ≤ m := by
  rw [popCountNat]
  by_cases h : m = 0
  · simp [h]
  · rw [dif_neg h]
    have := popCountNat_le (m / 2)
    omega
termination_by m
decreasing_by
  exact Nat.div_lt_self (Nat.pos_of_ne_zero h) one_lt_two

theorem popCountNat_pos (m : Nat) (hm : 1 ≤ m) : 1 ≤ popCountNat m := by
  rw [popCountNat, dif_neg (by omega)]
  by_cases h2 : m % 2 = 1
  · omega
  · have hq : 1 ≤ m / 2 := by omega
    have := popCountNat_pos (m / 2) hq
    omega
termination_by m
decreasing_by
  exact Nat.div_lt_self (by omega) one_lt_two

theorem popCountNat_lt (m : Nat) (hm : 2 ≤ m) : popCountNat m < m := by
  rw [popCountNat, dif_neg (by omega)]
  have := popCountNat_le (m / 2)
  omega

theorem segLensAux_sum (m i : Nat) : (segLensAux m i).sum = m * i := by
  rw [segLensAux]
  by_cases h : m = 0
  · simp [h]
  · rw [dif_neg h]
    rw [List.sum_append, segLensAux_sum (m / 2) (2 * i)]
    by_cases h2 : m % 2 = 1
    · have hm : m = 2 * (m / 2) + 1 := by omega
      simp only [if_pos h2, List.sum_singleton]
      conv_rhs => rw [hm]
      ring
    · have hm : m = 2 * (m / 2) := by omega
      simp only [if_neg h2, List.sum_nil, Nat.zero_add]
      conv_rhs => rw [hm]
      ring
termination_by m
decreasing_by
  exact Nat.div_lt_self (Nat.pos_of_ne_zero h) one_lt_two

theorem segLensAux_length (m i : Nat) : (segLensAux m i).length = popCountNat m := by
  rw [segLensAux, popCountNat]
  by_cases h : m = 0
  · simp [h]
  · rw [dif_neg h, dif_neg h]
    rw [List.length_append, segLensAux_length (m / 2) (2 * i)]
    by_cases h2 : m % 2 = 1
    · simp only [if_pos h2, List.length_singleton]
      omega
    · simp only [if_neg h2, List.length_nil]
      omega
termination_by m
decreasing_by
  exact Nat.div_lt_self (Nat.pos_of_ne_zero h) one_lt_two

theorem segLensAux_pos (m i : Nat) (hi : 1 ≤ i) :
    ∀ x ∈ segLensAux m i, 1 ≤ x := by
  intro x hx
  rw [segLensAux] at hx
  by_cases h : m = 0
  · simp [h] at hx
  · rw [dif_neg h] at hx
    rcases List.mem_append.mp hx with h1 | h2
    · by_cases hb : m % 2 = 1
      · rw [if_pos hb] at h1
        simp at h1
        omega
      · rw [if_neg hb] at h1
        simp at h1
    · exact segLensAux_pos (m / 2) (2 * i) (by omega) x h2
termination_by m
decreasing_by
  exact Nat.div_lt_self (Nat.pos_of_ne_zero h) one_lt_two

/-- The `for`-loop enumeration starting at `2 ^ k` agrees with the
digit-recursion helper on `n / 2 ^ k`. -/
theorem segLensLoop_pow (j : Nat) : ∀ k n : Nat, n < 2 ^ (k + j) →
    segLensLoop n (2 ^ k) = segLensAux (n / 2 ^ k) (2 ^ k) := by
  induction j with
  | zero =>
    intro k n h
    rw [Nat.add_zero] at h
    rw [segLensLoop, segLensAux]
    rw [dif_neg (by omega), dif_pos (Nat.div_eq_of_lt h)]
  | succ j ih =>
    intro k n h
    by_cases hle : 2 ^ k ≤ n
    · have hpow : (0:Nat) < 2 ^ k := Nat.pos_pow_of_pos k (by omega)
      rw [segLensLoop, segLensAux]
      rw [dif_pos ⟨hpow, hle⟩, dif_neg (by have := Nat.div_pos hle hpow; omega)]
      have hbit : (n &&& 2 ^ k = 2 ^ k) ↔ (n / 2 ^ k % 2 = 1) := by
        rw [Nat.and_two_pow, Nat.testBit_to_div_mod]
        by_cases ht : n / 2 ^ k % 2 = 1
        · simp [ht]
        · simp [ht]
          omega
      have hrec : segLensLoop n (2 * 2 ^ k) = segLensAux (n / 2 ^ k / 2) (2 * 2 ^ k) := by
        have h2 : 2 * 2 ^ k = 2 ^ (k + 1) := by ring
        have hdiv : n / 2 ^ k / 2 = n / 2 ^ (k + 1) := by
          rw [Nat.div_div_eq_div_mul, pow_succ]
        rw [h2, hdiv]
        exact ih (k + 1) n (by rw [show k + 1 + j = k + (j + 1) by omega]; exact h)
      rw [hrec]
      congr 1
      by_cases hb : n / 2 ^ k % 2 = 1
      · rw [if_pos (hbit.mpr hb), if_pos hb]
      · rw [if_neg (fun hc => hb (hbit.mp hc)), if_neg hb]
    · rw [segLensLoop, segLensAux]
      rw [dif_neg (by omega), dif_pos (Nat.div_eq_of_lt (by omega))]

/-- At `i = 1` the loop enumeration is the digit recursion. -/
theorem segLensLoop_one (n : Nat) : segLensLoop n 1 = segLensAux n 1 := by
  have h := segLensLoop_pow n 0 n (by simpa using Nat.lt_two_pow n)
  simpa using h

/-! ### Chunking and reduction lemmas -/

theorem chunksBy_spec {α : Type} : ∀ (ks : List Nat) (l : List α),
    ks.sum = l.length →
    (chunksBy l ks).map List.length = ks ∧ (chunksBy l ks).flatten = l
  | [], l, h => by
    have hl : l.length = 0 := by simpa using h.symm
    have : l = [] := List.length_eq_zero.mp hl
    simp [chunksBy, this]
  | k :: ks, l, h => by
    have hs : k + ks.sum = l.length := by simpa using h
    have hk : k ≤ l.length := by omega
    have hrec := chunksBy_spec ks (l.drop k)
      (by rw [List.length_drop]; omega)
    refine ⟨?_, ?_⟩
    · simp [chunksBy, hrec.1, List.length_take, Nat.min_eq_left hk]
    · simp [chunksBy, hrec.2]

theorem chunksBy_map {α β : Type} (f : α → β) : ∀ (ks : List Nat) (l : List α),
    chunksBy (l.map f) ks = (chunksBy l ks).map (List.map f)
  | [], _ => rfl
  | k :: ks, l => by
    simp only [chunksBy, List.map_cons]
    rw [← List.map_take, ← List.map_drop, chunksBy_map f ks (l.drop k)]

theorem mapM_except_ok {α β : Type} (f : α → Except Err β) (g : α → β) :
    ∀ l : List α, (∀ x ∈ l, f x = .ok (g x)) → l.mapM f = .ok (l.map g)
  | [], _ => rfl
  | a :: l, h => by
    rw [List.mapM_cons, h a (by simp)]
    rw [mapM_except_ok f g l (fun x hx => h x (by simp [hx]))]
    rfl

theorem andTreeRound_all (env : Nat → Bool) : ∀ ws : List Wire,
    (andTreeRound ws).all (evalW env) = ws.all (evalW env)
  | [] => rfl
  | [_] => by simp [andTreeRound]
  | a :: b :: rest => by
    simp only [andTreeRound, List.all_cons, andTreeRound_all env rest, evalW]
    rw [Bool.and_assoc]

/-- The single wire produced by the full AND-tree reduction. -/
def andReduceWire (c : List Wire) : Wire :=
  (andReduceW c).headD (Wire.input 0)

theorem andReduceW_spec (ws : List Wire) (hne : ws ≠ []) :
    andReduceW ws = [andReduceWire ws] ∧
    ∀ env, evalW env (andReduceWire ws) = ws.all (evalW env) := by
  by_cases h1 : ws.length ≤ 1
  · match ws, hne, h1 with
    | [w], _, _ =>
      have hr : andReduceW [w] = [w] := by rw [andReduceW]; simp
      refine ⟨by rw [andReduceWire, hr]; simp, fun env => ?_⟩
      rw [andReduceWire, hr]
      simp
  · have hstep : andReduceW ws = andReduceW (andTreeRound ws) := by
      rw [andReduceW, dif_neg h1]
    have hlen : (andTreeRound ws).length = (ws.length + 1) / 2 := andTreeRound_length ws
    have hne2 : andTreeRound ws ≠ [] := by
      intro hcon
      rw [hcon] at hlen
      simp at hlen
      omega
    obtain ⟨hw, he⟩ := andReduceW_spec (andTreeRound ws) hne2
    have hwire : andReduceWire ws = andReduceWire (andTreeRound ws) := by
      rw [andReduceWire, andReduceWire, hstep]
    refine ⟨?_, fun env => ?_⟩
    · rw [hstep, hwire]
      exact hw
    · rw [hwire, he env, andTreeRound_all]
termination_by ws.length
decreasing_by
  rw [andTreeRound_length]
  omega

theorem fullAndTree_boolean (p : MpcProtocol) (ws : List Wire) :
    fullAndTree (.boolean p ws) = .boolean p (andReduceW ws) := rfl

/-- `Join` of single-wire boolean shares of a common boolean protocol
concatenates the wires back. -/
theorem joinOp_singletons (p : MpcProtocol) (hp : p = .booleanGmw ∨ p = .bmr) :
    ∀ ws : List Wire, ws ≠ [] →
      joinOp (ws.map (fun w => Share.boolean p [w])) = .ok (.boolean p ws) := by
  intro ws hne
  match ws with
  | w :: rest =>
    rw [List.map_cons, joinOp]
    have hany : (rest.map (fun w => Share.boolean p [w])).any
        (fun t => t.protocol ≠ (Share.boolean p [w]).protocol) = false := by
      rw [List.any_eq_false]
      intro t ht
      rcases List.mem_map.mp ht with ⟨x, _, rfl⟩
      simp [Share.protocol]
    rw [if_neg (by rw [hany]; simp)]
    have hwires : ((Share.boolean p [w]) :: rest.map (fun w => Share.boolean p [w])).flatMap
        Share.wires = w :: rest := by
      rw [List.flatMap_cons]
      induction rest with
      | nil => rfl
      | cons b t ih => simp_all [Share.wires]
    rcases hp with hp | hp <;> subst hp
    · simp only [Share.protocol]
      rw [hwires]
    · simp only [Share.protocol]
      rw [hwires]

theorem list_all_congr {α : Type} : ∀ (l : List α) (f g : α → Bool),
    (∀ x ∈ l, f x = g x) → l.all f = l.all g
  | [], _, _, _ => rfl
  | a :: t, f, g, h => by
    have h1 : f a = g a := h a (List.mem_cons_self a t)
    have h2 := list_all_congr t f g (fun x hx => h x (List.mem_cons_of_mem a hx))
    simp only [List.all_cons, h1, h2]

theorem list_all_map {α β : Type} (f : α → β) (l : List α) (q : β → Bool) :
    (l.map f).all q = l.all (fun x => q (f x)) := by
  induction l with
  | nil => rfl
  | cons a t ih => simp [ih]

theorem list_all_flatten {α : Type} (l : List (List α)) (f : α → Bool) :
    l.flatten.all f = l.all (fun s => s.all f) := by
  induction l with
  | nil => rfl
  | cons a t ih => simp [ih]

theorem mapM_joinOp_chunks (p : MpcProtocol) (hp : p = .booleanGmw ∨ p = .bmr) :
    ∀ cs : List (List Wire), (∀ c ∈ cs, c ≠ []) →
      (cs.map (List.map (fun w => Share.boolean p [w]))).mapM joinOp =
        .ok (cs.map (fun c => Share.boolean p c))
  | [], _ => rfl
  | c :: cs, h => by
    rw [List.map_cons, List.mapM_cons, joinOp_singletons p hp c (h c (by simp)),
        mapM_joinOp_chunks p hp cs (fun x hx => h x (by simp [hx]))]
    rfl

/-- One loop iteration of the non-power-of-two equality reduction on a
boolean share: it produces a share of the same protocol holding one
AND-reduced wire per binary-expansion segment; the new bit length is the
popcount of the old one and the conjunction of all wires is preserved. -/
theorem eqIter_boolean (p : MpcProtocol) (hp : p = .booleanGmw ∨ p = .bmr)
    (ws : List Wire) (hpos : 1 ≤ ws.length) :
    eqIter (.boolean p ws) =
      .ok (.boolean p ((chunksBy ws (segLensAux ws.length 1)).map andReduceWire)) ∧
    ((chunksBy ws (segLensAux ws.length 1)).map andReduceWire).length =
      popCountNat ws.length ∧
    ∀ env, ((chunksBy ws (segLensAux ws.length 1)).map andReduceWire).all (evalW env) =
      ws.all (evalW env) := by
  have hsum : (segLensAux ws.length 1).sum = ws.length := by
    rw [segLensAux_sum, Nat.mul_one]
  obtain ⟨hlens, hflat⟩ := chunksBy_spec (segLensAux ws.length 1) ws hsum
  have hkpos : ∀ x ∈ segLensAux ws.length 1, 1 ≤ x :=
    segLensAux_pos ws.length 1 (le_refl 1)
  have hcne : ∀ c ∈ chunksBy ws (segLensAux ws.length 1), c ≠ [] := by
    intro c hc hcon
    have hmem : c.length ∈ segLensAux ws.length 1 := by
      rw [← hlens]
      exact List.mem_map_of_mem _ hc
    have := hkpos _ hmem
    rw [hcon] at this
    simp at this
  have hcslen : (chunksBy ws (segLensAux ws.length 1)).length =
      popCountNat ws.length := by
    have h1 : (chunksBy ws (segLensAux ws.length 1)).length =
        (segLensAux ws.length 1).length := by
      conv_rhs => rw [← hlens]
      rw [List.length_map]
    rw [h1, segLensAux_length]
  refine ⟨?_, ?_, ?_⟩
  · show Except.bind
      ((chunksBy (splitOp (Share.boolean p ws))
        (segLensLoop (Share.boolean p ws).bitLength 1)).mapM joinOp)
      (fun joined => joinOp (joined.map fullAndTree)) = _
    have hsegs : chunksBy (splitOp (Share.boolean p ws))
        (segLensLoop (Share.boolean p ws).bitLength 1) =
        (chunksBy ws (segLensAux ws.length 1)).map
          (List.map (fun w => Share.boolean p [w])) := by
      show chunksBy (ws.map fun w => Share.boolean p [w]) (segLensLoop ws.length 1) = _
      rw [segLensLoop_one, chunksBy_map]
    rw [hsegs, mapM_joinOp_chunks p hp _ hcne]
    show joinOp (((chunksBy ws (segLensAux ws.length 1)).map
      (fun c => Share.boolean p c)).map fullAndTree) = _
    have houtput : ((chunksBy ws (segLensAux ws.length 1)).map
        (fun c => Share.boolean p c)).map fullAndTree =
        ((chunksBy ws (segLensAux ws.length 1)).map andReduceWire).map
          (fun w => Share.boolean p [w]) := by
      rw [List.map_map, List.map_map]
      apply List.map_congr_left
      intro c hc
      show fullAndTree (Share.boolean p c) = Share.boolean p [andReduceWire c]
      rw [fullAndTree_boolean, (andReduceW_spec c (hcne c hc)).1]
    rw [houtput]
    apply joinOp_singletons p hp
    intro hcon
    have : (chunksBy ws (segLensAux ws.length 1)).length = 0 := by
      rw [← List.length_map _ andReduceWire, hcon]
      rfl
    rw [hcslen] at this
    have := popCountNat_pos ws.length hpos
    omega
  · rw [List.length_map, hcslen]
  · intro env
    rw [list_all_map]
    have h1 : (chunksBy ws (segLensAux ws.length 1)).all
        (fun c => evalW env (andReduceWire c)) =
        (chunksBy ws (segLensAux ws.length 1)).all (fun c => c.all (evalW env)) := by
      apply list_all_congr
      intro c hc
      exact (andReduceW_spec c (hcne c hc)).2 env
    rw [h1, ← list_all_flatten, hflat]

/-- Fuel adequacy of the embedded `while` loop: on a boolean share with at
least one wire and fuel at least the wire count, the loop reaches a
single-wire share computing the conjunction of all initial wires. -/
theorem eqLoopFuel_ok (p : MpcProtocol) (hp : p = .booleanGmw ∨ p = .bmr) :
    ∀ (fuel : Nat) (ws : List Wire), 1 ≤ ws.length → ws.length ≤ fuel →
      ∃ w, eqLoopFuel fuel (.boolean p ws) = .ok (.boolean p [w]) ∧
        ∀ env, evalW env w = ws.all (evalW env)
  | 0, ws, h1, hf => by omega
  | fuel + 1, ws, h1, hf => by
    by_cases hlen : ws.length = 1
    · obtain ⟨w, rfl⟩ := List.length_eq_one.mp hlen
      refine ⟨w, ?_, fun env => by simp⟩
      rw [eqLoopFuel]
      rfl
    · obtain ⟨hiter, hlen', heval⟩ := eqIter_boolean p hp ws h1
      have h2 : 2 ≤ ws.length := by omega
      have hlt := popCountNat_lt ws.length h2
      have hpos' : 1 ≤ ((chunksBy ws (segLensAux ws.length 1)).map andReduceWire).length := by
        rw [hlen']
        exact popCountNat_pos ws.length h1
      obtain ⟨w, hw, he⟩ := eqLoopFuel_ok p hp fuel
        ((chunksBy ws (segLensAux ws.length 1)).map andReduceWire) hpos' (by omega)
      refine ⟨w, ?_, fun env => by rw [he env, heval env]⟩
      rw [eqLoopFuel]
      rw [if_neg (by show ¬(Share.boolean p ws).bitLength = 1; exact hlen)]
      rw [hiter]
      exact hw

/-! ### Boolean operator computation lemmas -/

theorem invOp_boolean (p : MpcProtocol) (hp : p = .booleanGmw ∨ p = .bmr)
    (ws : List Wire) :
    invOp (.boolean p ws) = .ok (.boolean p (ws.map Wire.winv)) := by
  rcases hp with hp | hp <;> subst hp <;> rfl

theorem xorOp_boolean (p : MpcProtocol) (hp : p = .booleanGmw ∨ p = .bmr)
    (as bs : List Wire) :
    xorOp (.boolean p as) (.boolean p bs) =
      .ok (.boolean p (List.zipWith Wire.wxor as bs)) := by
  rcases hp with hp | hp <;> subst hp <;> rfl

theorem andOp_boolean (p : MpcProtocol) (hp : p = .booleanGmw ∨ p = .bmr)
    (as bs : List Wire) :
    andOp (.boolean p as) (.boolean p bs) =
      .ok (.boolean p (List.zipWith Wire.wand as bs)) := by
  rcases hp with hp | hp <;> subst hp <;> rfl

theorem andReduceW_singleton (w : Wire) : andReduceW [w] = [w] := by
  rw [andReduceW]
  simp

theorem list_map_zipWith {α β γ δ : Type} (g : γ → δ) (f : α → β → γ) :
    ∀ (as : List α) (bs : List β),
      (List.zipWith f as bs).map g = List.zipWith (fun a b => g (f a b)) as bs
  | [], _ => by simp
  | _ :: _, [] => by simp
  | a :: as, b :: bs => by
    simp [list_map_zipWith g f as bs]

/-- Semantics of the XNOR wire vector: each wire evaluates to the
equality of the corresponding operand bits. -/
theorem xnor_semantics (env : Nat → Bool) : ∀ (as bs : List Wire),
    (List.zipWith (fun x y => Wire.winv (Wire.wxor x y)) as bs).all (evalW env) =
      (List.zipWith (fun x y => evalW env x == evalW env y) as bs).all id
  | [], _ => by simp
  | _ :: _, [] => by simp
  | a :: as, b :: bs => by
    have hb : ∀ x y : Bool, (!(xor x y)) = (x == y) := by decide
    simp only [List.zipWith_cons_cons, List.all_cons, evalW,
      xnor_semantics env as bs, hb, id]

/-- Reduction of `eqBuild` on equal-length boolean operands to the
XNOR-then-reduce dispatch. -/
theorem eqBuild_boolean (p : MpcProtocol) (hp : p = .booleanGmw ∨ p = .bmr)
    (as bs : List Wire) :
    eqBuild (.boolean p as) (.boolean p bs) =
      (let xnorW := List.zipWith (fun x y => Wire.winv (Wire.wxor x y)) as bs
       if xnorW.length = 1 then .ok (.boolean p xnorW)
       else if IsPowerOfTwo xnorW.length then .ok (fullAndTree (.boolean p xnorW))
       else eqLoopFuel (xnorW.length + 1) (.boolean p xnorW)) := by
  show Except.bind (xorOp (.boolean p as) (.boolean p bs)) _ = _
  rw [xorOp_boolean p hp as bs]
  show Except.bind (invOp (.boolean p (List.zipWith Wire.wxor as bs))) _ = _
  rw [invOp_boolean p hp, list_map_zipWith]
  rfl

/-- C2: the equality operator is XNOR followed by an AND-reduction — a
full balanced AND tree at a power-of-two bit length, otherwise the
segment-decomposition loop — and the resulting single wire computes the
conjunction of the bitwise equalities. -/
theorem motion_c2 (p : MpcProtocol) (hp : p = .booleanGmw ∨ p = .bmr)
    (as bs : List Wire) (hlen : bs.length = as.length) (hpos : 1 ≤ as.length) :
    (eqBuild (.boolean p as) (.boolean p bs) =
      if IsPowerOfTwo as.length then
        .ok (fullAndTree
          (.boolean p (List.zipWith (fun x y => Wire.winv (Wire.wxor x y)) as bs)))
      else
        eqLoopFuel (as.length + 1)
          (.boolean p (List.zipWith (fun x y => Wire.winv (Wire.wxor x y)) as bs))) ∧
    ∃ w, eqBuild (.boolean p as) (.boolean p bs) = .ok (.boolean p [w]) ∧
      ∀ env, evalW env w =
        (List.zipWith (fun x y => evalW env x == evalW env y) as bs).all id := by
  have hxlen : (List.zipWith (fun x y => Wire.winv (Wire.wxor x y)) as bs).length
      = as.length := by
    rw [List.length_zipWith, hlen, Nat.min_self]
  have hstart := eqBuild_boolean p hp as bs
  simp only at hstart
  constructor
  · rw [hstart, hxlen]
    by_cases h1 : as.length = 1
    · obtain ⟨w, hw⟩ := List.length_eq_one.mp (hxlen.trans h1)
      rw [if_pos h1, if_pos (by rw [h1]; rfl), hw, fullAndTree_boolean,
        andReduceW_singleton]
    · rw [if_neg h1]
  · rw [hstart, hxlen]
    have hxne : (List.zipWith (fun x y => Wire.winv (Wire.wxor x y)) as bs) ≠ [] := by
      intro hcon
      rw [hcon] at hxlen
      simp at hxlen
      omega
    by_cases h1 : as.length = 1
    · obtain ⟨w, hw⟩ := List.length_eq_one.mp (hxlen.trans h1)
      rw [if_pos h1, hw]
      refine ⟨w, rfl, fun env => ?_⟩
      have := xnor_semantics env as bs
      rw [hw] at this
      simpa using this
    · rw [if_neg h1]
      by_cases h2 : IsPowerOfTwo as.length
      · rw [if_pos h2, fullAndTree_boolean,
          (andReduceW_spec _ hxne).1]
        refine ⟨andReduceWire _, rfl, fun env => ?_⟩
        rw [(andReduceW_spec _ hxne).2 env, xnor_semantics env as bs]
      · rw [if_neg h2]
        obtain ⟨w, hok, he⟩ := eqLoopFuel_ok p hp (as.length + 1)
          (List.zipWith (fun x y => Wire.winv (Wire.wxor x y)) as bs)
          (by omega) (by omega)
        refine ⟨w, hok, fun env => ?_⟩
        rw [he env, xnor_semantics env as bs]

/-- C8: the non-power-of-two reduction loop terminates for every starting
bit length of at least 1 — with fuel at least the bit length it reaches a
single-wire share — and each iteration on more than one wire replaces the
bit length n by `popCountNat n < n`. -/
theorem motion_c8 (p : MpcProtocol) (hp : p = .booleanGmw ∨ p = .bmr)
    (ws : List Wire) (fuel : Nat) (h1 : 1 ≤ ws.length) (hf : ws.length ≤ fuel) :
    (∃ w, eqLoopFuel fuel (.boolean p ws) = .ok (.boolean p [w])) ∧
    (1 < ws.length →
      ∃ ws', eqIter (.boolean p ws) = .ok (.boolean p ws') ∧
        ws'.length = popCountNat ws.length ∧ ws'.length < ws.length) := by
  constructor
  · obtain ⟨w, hw, _⟩ := eqLoopFuel_ok p hp fuel ws h1 hf
    exact ⟨w, hw⟩
  · intro h2
    obtain ⟨hiter, hlen, _⟩ := eqIter_boolean p hp ws h1
    refine ⟨_, hiter, hlen, ?_⟩
    rw [hlen]
    exact popCountNat_lt ws.length (by omega)

/-- C8 witness: a 3-bit BooleanGmw share reduces to one wire with fuel 4,
and one iteration shrinks the bit length from 3 to popcount 3 = 2. -/
theorem motion_c8_witness :
    (∃ w, eqLoopFuel 4 (.boolean .booleanGmw
      [Wire.input 0, Wire.input 1, Wire.input 2]) =
        .ok (.boolean .booleanGmw [w])) ∧
    (1 < ([Wire.input 0, Wire.input 1, Wire.input 2] : List Wire).length →
      ∃ ws', eqIter (.boolean .booleanGmw
        [Wire.input 0, Wire.input 1, Wire.input 2]) =
          .ok (.boolean .booleanGmw ws') ∧
        ws'.length = popCountNat 3 ∧ ws'.length < 3) :=
  motion_c8 .booleanGmw (Or.inl rfl) [Wire.input 0, Wire.input 1, Wire.input 2] 4
    (by decide) (by decide)

/-- C9: on two one-bit boolean operands the equality operator returns the
XNOR share itself; the produced wire adds no AND gate. -/
theorem motion_c9 (p : MpcProtocol) (hp : p = .booleanGmw ∨ p = .bmr)
    (wa wb : Wire) :
    eqBuild (.boolean p [wa]) (.boolean p [wb]) =
      .ok (.boolean p [Wire.winv (Wire.wxor wa wb)]) ∧
    countAnd (Wire.winv (Wire.wxor wa wb)) = countAnd wa + countAnd wb := by
  refine ⟨?_, rfl⟩
  rw [eqBuild_boolean p hp [wa] [wb]]
  rfl

/-- C9 witness at concrete input wires. -/
theorem motion_c9_witness :
    eqBuild (.boolean .bmr [Wire.input 0]) (.boolean .bmr [Wire.input 1]) =
      .ok (.boolean .bmr [Wire.winv (Wire.wxor (Wire.input 0) (Wire.input 1))]) ∧
    countAnd (Wire.winv (Wire.wxor (Wire.input 0) (Wire.input 1))) =
      countAnd (Wire.input 0) + countAnd (Wire.input 1) :=
  motion_c9 .bmr (Or.inr rfl) (Wire.input 0) (Wire.input 1)

/-- C10: the precondition checks of the equality operator only log — on a
bit-length mismatch or a zero compared bit length the log is non-empty
and the circuit construction result is exactly `eqBuild`, independent of
the checks. -/
theorem motion_c10 (a b : Share)
    (h : b.bitLength ≠ a.bitLength ∨ b.bitLength = 0) :
    eqPrecheckLogs a b ≠ [] ∧ eqOp a b = (eqPrecheckLogs a b, eqBuild a b) := by
  refine ⟨?_, rfl⟩
  rw [eqPrecheckLogs]
  by_cases h1 : b.bitLength ≠ a.bitLength
  · rw [if_pos h1]
    simp
  · rw [if_neg h1]
    have h0 : b.bitLength = 0 := by tauto
    rw [if_pos h0]
    simp

/-- C10 witness: comparing a 1-bit share with a 2-bit share logs and still
builds. -/
theorem motion_c10_witness :
    eqPrecheckLogs (.boolean .booleanGmw [Wire.input 0])
        (.boolean .booleanGmw [Wire.input 1, Wire.input 2]) ≠ [] ∧
    eqOp (.boolean .booleanGmw [Wire.input 0])
        (.boolean .booleanGmw [Wire.input 1, Wire.input 2]) =
      (eqPrecheckLogs (.boolean .booleanGmw [Wire.input 0])
        (.boolean .booleanGmw [Wire.input 1, Wire.input 2]),
       eqBuild (.boolean .booleanGmw [Wire.input 0])
        (.boolean .booleanGmw [Wire.input 1, Wire.input 2])) :=
  motion_c10 (.boolean .booleanGmw [Wire.input 0])
    (.boolean .booleanGmw [Wire.input 1, Wire.input 2]) (Or.inl (by decide))

/-- C2 witness: a 3-bit comparison (bit length not a power of two) takes
the segment-decomposition loop. -/
theorem motion_c2_witness :
    eqBuild (.boolean .booleanGmw [Wire.input 0, Wire.input 1, Wire.input 2])
        (.boolean .booleanGmw [Wire.input 3, Wire.input 4, Wire.input 5]) =
      if IsPowerOfTwo ([Wire.input 0, Wire.input 1, Wire.input 2] : List Wire).length then
        .ok (fullAndTree (.boolean .booleanGmw
          (List.zipWith (fun x y => Wire.winv (Wire.wxor x y))
            [Wire.input 0, Wire.input 1, Wire.input 2]
            [Wire.input 3, Wire.input 4, Wire.input 5])))
      else
        eqLoopFuel (([Wire.input 0, Wire.input 1, Wire.input 2] : List Wire).length + 1)
          (.boolean .booleanGmw
            (List.zipWith (fun x y => Wire.winv (Wire.wxor x y))
              [Wire.input 0, Wire.input 1, Wire.input 2]
              [Wire.input 3, Wire.input 4, Wire.input 5])) :=
  (motion_c2 .booleanGmw (Or.inl rfl)
    [Wire.input 0, Wire.input 1, Wire.input 2]
    [Wire.input 3, Wire.input 4, Wire.input 5] rfl (by decide)).1

/-- The De Morgan reading of `operator|` on boolean shares. -/
theorem orOp_deMorgan (p : MpcProtocol) (hp : p = .booleanGmw ∨ p = .bmr)
    (as bs : List Wire) :
    orOp (.boolean p as) (.boolean p bs) =
      (do
        let na ← invOp (.boolean p as)
        let nb ← invOp (.boolean p bs)
        let c ← andOp na nb
        invOp c) := by
  rw [orOp]
  rw [if_neg (by rcases hp with hp | hp <;> subst hp <;> simp [Share.protocol])]

/-- Wire-level result of `operator|` on boolean shares. -/
theorem orOp_boolean (p : MpcProtocol) (hp : p = .booleanGmw ∨ p = .bmr)
    (as bs : List Wire) :
    orOp (.boolean p as) (.boolean p bs) =
      .ok (.boolean p (List.zipWith
        (fun x y => Wire.winv (Wire.wand (Wire.winv x) (Wire.winv y))) as bs)) := by
  rw [orOp_deMorgan p hp]
  show Except.bind (invOp (.boolean p as)) _ = _
  rw [invOp_boolean p hp as]
  show Except.bind (invOp (.boolean p bs)) _ = _
  rw [invOp_boolean p hp bs]
  show Except.bind (andOp (.boolean p (as.map Wire.winv))
    (.boolean p (bs.map Wire.winv))) _ = _
  rw [andOp_boolean p hp]
  show invOp (.boolean p (List.zipWith Wire.wand (as.map Wire.winv)
    (bs.map Wire.winv))) = _
  rw [invOp_boolean p hp]
  rw [List.zipWith_map, list_map_zipWith]

/-- C4: OR is the De Morgan composition `NOT (AND (NOT a) (NOT b))` — the
exact bind of the translated NOT and AND operators — and the produced
wires contain only INV and AND nodes applied to the operand wires; no
dedicated OR gate type exists in the gate vocabulary. -/
theorem motion_c4 (p : MpcProtocol) (hp : p = .booleanGmw ∨ p = .bmr)
    (as bs : List Wire) (hlen : as.length = bs.length) :
    orOp (.boolean p as) (.boolean p bs) =
      (do
        let na ← invOp (.boolean p as)
        let nb ← invOp (.boolean p bs)
        let c ← andOp na nb
        invOp c) ∧
    orOp (.boolean p as) (.boolean p bs) =
      .ok (.boolean p (List.zipWith
        (fun x y => Wire.winv (Wire.wand (Wire.winv x) (Wire.winv y))) as bs)) :=
  ⟨orOp_deMorgan p hp as bs, orOp_boolean p hp as bs⟩

/-- C4 witness on single-bit Bmr operands. -/
theorem motion_c4_witness :
    (orOp (.boolean .bmr [Wire.input 0]) (.boolean .bmr [Wire.input 1]) =
      (do
        let na ← invOp (.boolean .bmr [Wire.input 0])
        let nb ← invOp (.boolean .bmr [Wire.input 1])
        let c ← andOp na nb
        invOp c)) ∧
    orOp (.boolean .bmr [Wire.input 0]) (.boolean .bmr [Wire.input 1]) =
      .ok (.boolean .bmr [Wire.winv (Wire.wand (Wire.winv (Wire.input 0))
        (Wire.winv (Wire.input 1)))]) :=
  motion_c4 .bmr (Or.inr rfl) [Wire.input 0] [Wire.input 1] rfl

/-- C5: each of NOT, XOR, AND, OR throws `UnsupportedOperation` on an
ArithmeticGmw-tagged receiver (building nothing), while on BooleanGmw and
Bmr operands of equal protocol and bit length all four succeed. -/
theorem motion_c5 (s t : Share) (hs : s.protocol = .arithmeticGmw)
    (p : MpcProtocol) (hp : p = .booleanGmw ∨ p = .bmr)
    (as bs : List Wire) (hlen : as.length = bs.length) :
    (invOp s = .error .unsupportedOperation ∧
     xorOp s t = .error .unsupportedOperation ∧
     andOp s t = .error .unsupportedOperation ∧
     orOp s t = .error .unsupportedOperation) ∧
    ((invOp (.boolean p as)).isOk = true ∧
     (xorOp (.boolean p as) (.boolean p bs)).isOk = true ∧
     (andOp (.boolean p as) (.boolean p bs)).isOk = true ∧
     (orOp (.boolean p as) (.boolean p bs)).isOk = true) := by
  constructor
  · refine ⟨?_, ?_, ?_, ?_⟩
    · rw [invOp, if_pos hs]
    · rw [xorOp, if_pos hs]
    · rw [andOp, if_pos hs]
    · rw [orOp, if_pos hs]
  · refine ⟨?_, ?_, ?_, ?_⟩
    · rw [invOp_boolean p hp]
      rfl
    · rw [xorOp_boolean p hp]
      rfl
    · rw [andOp_boolean p hp]
      rfl
    · rw [orOp_boolean p hp]
      rfl

/-- C5 witness: an 8-bit arithmetic share rejects all four boolean
primitives; 1-bit BooleanGmw shares accept them. -/
theorem motion_c5_witness :
    (invOp (.arith 8 false [Wire.ainput 8 0]) = .error .unsupportedOperation ∧
     xorOp (.arith 8 false [Wire.ainput 8 0]) (.arith 8 false [Wire.ainput 8 1]) =
       .error .unsupportedOperation ∧
     andOp (.arith 8 false [Wire.ainput 8 0]) (.arith 8 false [Wire.ainput 8 1]) =
       .error .unsupportedOperation ∧
     orOp (.arith 8 false [Wire.ainput 8 0]) (.arith 8 false [Wire.ainput 8 1]) =
       .error .unsupportedOperation) ∧
    ((invOp (.boolean .booleanGmw [Wire.input 0])).isOk = true ∧
     (xorOp (.boolean .booleanGmw [Wire.input 0])
       (.boolean .booleanGmw [Wire.input 1])).isOk = true ∧
     (andOp (.boolean .booleanGmw [Wire.input 0])
       (.boolean .booleanGmw [Wire.input 1])).isOk = true ∧
     (orOp (.boolean .booleanGmw [Wire.input 0])
       (.boolean .booleanGmw [Wire.input 1])).isOk = true) :=
  motion_c5 (.arith 8 false [Wire.ainput 8 0]) (.arith 8 false [Wire.ainput 8 1])
    rfl .booleanGmw (Or.inl rfl) [Wire.input 0] [Wire.input 1] rfl

/-- Does a result share hold a dedicated constant-operand arithmetic gate
(`ConstantArithmeticAdditionGate` / `ConstantArithmeticMultiplicationGate`)
as its wire? -/
def buildsConstantGateVariant : Except Err Share → Bool
  | .ok (.arith _ _ (Wire.constAddGate _ _ _ :: _)) => true
  | .ok (.arith _ _ (Wire.constMulGate _ _ _ :: _)) => true
  | _ => false

/-- C1 counterexample: an 8-bit subtraction with a constant first operand
does not build a constant-operand gate variant — `Sub<T>` has no constant
branch, its downcast of the constant operand fails — while the same
operands under addition and multiplication do produce the constant
variants. -/
theorem motion_c1_counterexample :
    subOp (.arith 8 true [Wire.aconstWire 8 0]) (.arith 8 false [Wire.ainput 8 1]) =
      .error .downcastFailure ∧
    buildsConstantGateVariant (subOp (.arith 8 true [Wire.aconstWire 8 0])
      (.arith 8 false [Wire.ainput 8 1])) = false ∧
    buildsConstantGateVariant (addOp (.arith 8 true [Wire.aconstWire 8 0])
      (.arith 8 false [Wire.ainput 8 1])) = true ∧
    buildsConstantGateVariant (mulOp (.arith 8 true [Wire.aconstWire 8 0])
      (.arith 8 false [Wire.ainput 8 1])) = true :=
  ⟨rfl, rfl, rfl, rfl⟩

/-- C1 (amended): with a successful width dispatch and exactly one
constant operand, ADD and MUL identify the constant operand (in either
argument order) and build the dedicated constant-operand gate from the
live wire and the constant wire; SUB has no such branch — it
unconditionally attempts the standard two-input path, whose downcast of
the constant operand fails, so no gate is built. -/
theorem motion_c1 (w : Nat) (hw : w = 8 ∨ w = 16 ∨ w = 32 ∨ w = 64)
    (gc gn : Wire) :
    addOp (.arith w true [gc]) (.arith w false [gn]) =
      .ok (.arith w false [Wire.constAddGate w gn gc]) ∧
    addOp (.arith w false [gn]) (.arith w true [gc]) =
      .ok (.arith w false [Wire.constAddGate w gn gc]) ∧
    mulOp (.arith w true [gc]) (.arith w false [gn]) =
      .ok (.arith w false [Wire.constMulGate w gn gc]) ∧
    mulOp (.arith w false [gn]) (.arith w true [gc]) =
      .ok (.arith w false [Wire.constMulGate w gn gc]) ∧
    subOp (.arith w true [gc]) (.arith w false [gn]) = .error .downcastFailure ∧
    subOp (.arith w false [gn]) (.arith w true [gc]) = .error .downcastFailure := by
  rcases hw with rfl | rfl | rfl | rfl <;>
    exact ⟨rfl, rfl, rfl, rfl, rfl, rfl⟩

/-- C1 witness at width 8 and concrete wires. -/
theorem motion_c1_witness :
    addOp (.arith 8 true [Wire.aconstWire 8 0]) (.arith 8 false [Wire.ainput 8 1]) =
      .ok (.arith 8 false [Wire.constAddGate 8 (Wire.ainput 8 1) (Wire.aconstWire 8 0)]) ∧
    addOp (.arith 8 false [Wire.ainput 8 1]) (.arith 8 true [Wire.aconstWire 8 0]) =
      .ok (.arith 8 false [Wire.constAddGate 8 (Wire.ainput 8 1) (Wire.aconstWire 8 0)]) ∧
    mulOp (.arith 8 true [Wire.aconstWire 8 0]) (.arith 8 false [Wire.ainput 8 1]) =
      .ok (.arith 8 false [Wire.constMulGate 8 (Wire.ainput 8 1) (Wire.aconstWire 8 0)]) ∧
    mulOp (.arith 8 false [Wire.ainput 8 1]) (.arith 8 true [Wire.aconstWire 8 0]) =
      .ok (.arith 8 false [Wire.constMulGate 8 (Wire.ainput 8 1) (Wire.aconstWire 8 0)]) ∧
    subOp (.arith 8 true [Wire.aconstWire 8 0]) (.arith 8 false [Wire.ainput 8 1]) =
      .error .downcastFailure ∧
    subOp (.arith 8 false [Wire.ainput 8 1]) (.arith 8 true [Wire.aconstWire 8 0]) =
      .error .downcastFailure :=
  motion_c1 8 (Or.inl rfl) (Wire.aconstWire 8 0) (Wire.ainput 8 1)

/-- C3: converting an ArithmeticGmw share to BooleanGmw is exactly the
composition of the direct ArithmeticGmw-to-Bmr gate and the direct
Bmr-to-BooleanGmw gate, while converting a BooleanGmw share to
ArithmeticGmw is the single direct width-specialized gate, succeeding on
bit lengths 8/16/32/64 and failing with `InvalidBitLength` otherwise. -/
theorem motion_c3 (s : Share) :
    (s.protocol = .arithmeticGmw →
      convertToBooleanGmw s = Except.bind (arithmeticGmwToBmr s) bmrToBooleanGmw) ∧
    (s.protocol = .booleanGmw →
      convertToArithmeticGmw s = booleanGmwToArithmeticGmw s ∧
      ((s.bitLength = 8 ∨ s.bitLength = 16 ∨ s.bitLength = 32 ∨ s.bitLength = 64) →
        (convertToArithmeticGmw s).isOk = true) ∧
      (¬(s.bitLength = 8 ∨ s.bitLength = 16 ∨ s.bitLength = 32 ∨ s.bitLength = 64) →
        convertToArithmeticGmw s = .error .invalidBitLength)) := by
  constructor
  · intro hs
    have hcb : convertToBmr s = arithmeticGmwToBmr s := by
      rw [convertToBmr, if_neg (by rw [hs]; decide), if_pos hs]
    rw [convertToBooleanGmw]
    rw [if_neg (by rw [hs]; decide), dif_pos hs]
    split
    · rename_i e heq
      rw [hcb] at heq
      rw [heq]
      rfl
    · rename_i t heq
      have ht := convertToBmr_protocol s t heq
      rw [hcb] at heq
      rw [heq]
      rw [convertToBooleanGmw]
      rw [if_neg (by rw [ht]; decide), dif_neg (by rw [ht]; decide)]
      rfl
  · intro hs
    have h1 : convertToArithmeticGmw s = booleanGmwToArithmeticGmw s := by
      rw [convertToArithmeticGmw, if_neg (by rw [hs]; decide), dif_pos hs]
    refine ⟨h1, ?_, ?_⟩
    · intro hbl
      rw [h1]
      simp only [booleanGmwToArithmeticGmw]
      rw [if_pos hbl]
      cases s with
      | boolean p ws =>
        cases hws : ws with
        | nil =>
          exfalso
          have : (Share.boolean p ws).bitLength = 0 := by rw [hws]; rfl
          omega
        | cons w rest =>
          rfl
      | arith w c ws =>
        exfalso
        cases c <;> simp [Share.protocol] at hs
    · intro hbl
      rw [h1]
      simp only [booleanGmwToArithmeticGmw]
      rw [if_neg hbl]

/-- C3 witness: an 8-bit arithmetic share routes through Bmr to reach
BooleanGmw; an 8-bit BooleanGmw share converts by the single direct gate;
a 1-bit BooleanGmw share fails with `InvalidBitLength`. -/
theorem motion_c3_witness :
    (convertToBooleanGmw (.arith 8 false [Wire.ainput 8 0]) =
      Except.bind (arithmeticGmwToBmr (.arith 8 false [Wire.ainput 8 0]))
        bmrToBooleanGmw) ∧
    (convertToArithmeticGmw (.boolean .booleanGmw
        ((List.range 8).map Wire.input)) =
      booleanGmwToArithmeticGmw (.boolean .booleanGmw
        ((List.range 8).map Wire.input))) ∧
    convertToArithmeticGmw (.boolean .booleanGmw [Wire.input 0]) =
      .error .invalidBitLength :=
  ⟨(motion_c3 (.arith 8 false [Wire.ainput 8 0])).1 rfl,
   ((motion_c3 (.boolean .booleanGmw ((List.range 8).map Wire.input))).2 rfl).1,
   ((motion_c3 (.boolean .booleanGmw [Wire.input 0])).2 rfl).2.2 (by decide)⟩

/-- C6: `Join` on the empty sequence throws `EmptyInput`; `Join` on a
non-empty sequence containing two shares of different protocol tags
throws `ProtocolMismatch` — in both cases before any share is built. -/
theorem motion_c6 (l : List Share) (hne : l ≠ [])
    (hmix : ∃ a ∈ l, ∃ b ∈ l, a.protocol ≠ b.protocol) :
    joinOp ([] : List Share) = .error .emptyInput ∧
    joinOp l = .error .protocolMismatch := by
  refine ⟨rfl, ?_⟩
  match l, hne, hmix with
  | s :: rest, _, hmix =>
    rw [joinOp]
    have hany : rest.any (fun t => t.protocol ≠ s.protocol) = true := by
      by_contra hcon
      rw [Bool.not_eq_true, List.any_eq_false] at hcon
      have hall : ∀ t ∈ rest, t.protocol = s.protocol := by
        intro t ht
        have := hcon t ht
        simpa using this
      obtain ⟨a, ha, b, hb, hab⟩ := hmix
      have hap : a.protocol = s.protocol := by
        rcases List.mem_cons.mp ha with rfl | ha'
        · rfl
        · exact hall a ha'
      have hbp : b.protocol = s.protocol := by
        rcases List.mem_cons.mp hb with rfl | hb'
        · rfl
        · exact hall b hb'
      exact hab (hap.trans hbp.symm)
    rw [if_pos (by rw [hany])]

/-- C6 witness: an ArithmeticGmw and a BooleanGmw share mixed. -/
theorem motion_c6_witness :
    joinOp ([] : List Share) = .error .emptyInput ∧
    joinOp [.arith 8 false [Wire.ainput 8 0], .boolean .booleanGmw [Wire.input 1]] =
      .error .protocolMismatch :=
  motion_c6 [.arith 8 false [Wire.ainput 8 0], .boolean .booleanGmw [Wire.input 1]]
    (by decide)
    ⟨.arith 8 false [Wire.ainput 8 0], by decide,
     .boolean .booleanGmw [Wire.input 1], by decide, by decide⟩

/-- C7: on an input-wire-count mismatch, `Evaluate` logs an error and
does not raise from this check — the interpreter result is exactly
`evalBuild`, computed regardless of the check. -/
theorem motion_c7 (s : Share) (alg : AlgorithmDescription)
    (h : alg.number_of_input_wires_parent_a +
      alg.number_of_input_wires_parent_b.getD 0 ≠ s.bitLength) :
    (evaluateOp s alg).1 ≠ [] ∧ (evaluateOp s alg).2 = evalBuild s alg := by
  constructor
  · show (if _ ≠ _ then _ else []) ≠ []
    rw [if_pos h]
    simp
  · rfl

/-- C7 witness: a 1-bit share against a description declaring two input
wires (one XOR gate, one output); evaluation proceeds despite the logged
mismatch. -/
theorem motion_c7_witness :
    (evaluateOp (.boolean .booleanGmw [Wire.input 0])
      { number_of_wires := 3, number_of_gates := 1, number_of_output_wires := 1,
        number_of_input_wires_parent_a := 1, number_of_input_wires_parent_b := some 1,
        gates := [{ type := .kXor, parent_a := 0, parent_b := some 1,
                    output_wire := 2 }] }).1 ≠ [] ∧
    (evaluateOp (.boolean .booleanGmw [Wire.input 0])
      { number_of_wires := 3, number_of_gates := 1, number_of_output_wires := 1,
        number_of_input_wires_parent_a := 1, number_of_input_wires_parent_b := some 1,
        gates := [{ type := .kXor, parent_a := 0, parent_b := some 1,
                    output_wire := 2 }] }).2 =
      evalBuild (.boolean .booleanGmw [Wire.input 0])
        { number_of_wires := 3, number_of_gates := 1, number_of_output_wires := 1,
          number_of_input_wires_parent_a := 1, number_of_input_wires_parent_b := some 1,
          gates := [{ type := .kXor, parent_a := 0, parent_b := some 1,
                      output_wire := 2 }] } :=
  motion_c7 (.boolean .booleanGmw [Wire.input 0])
    { number_of_wires := 3, number_of_gates := 1, number_of_output_wires := 1,
      number_of_input_wires_parent_a := 1, number_of_input_wires_parent_b := some 1,
      gates := [{ type := .kXor, parent_a := 0, parent_b := some 1,
                  output_wire := 2 }] }
    (by decide)

end Motion
